import Mathlib

/-!
# Verification of the word-lock cryptographic operations layer

Shallow embedding of the crypto module (`src/unnamed/part_004`) and the LSB
steganographic codec (`src/src/components/layout/CommandPalette.tsx`).

Conventions:
* JS byte sequences (`Uint8Array`, binary strings) are `List ℕ` with values `< 256`.
* JS strings are `List Char` when handled as Unicode text (`TextEncoder` input),
  and `List ℕ` of UTF-16 code units where the source reads `charCodeAt`
  (steganography, `hashMD5`, password analysis).
* The Web Crypto primitives (`crypto.subtle`) are external library code; they are
  modelled from the spec as idealized deterministic primitives (see each doc
  comment).  Randomness (`crypto.getRandomValues`) is modelled by passing the
  random bytes as explicit arguments.
-/

/-! ## Base64 (`btoa` / `atob`)

The source transports every binary field as `btoa(String.fromCharCode(...bytes))`
and recovers it with `atob(blob).split('').map(c => c.charCodeAt(0))`.  We model
the pair as an explicit base64 codec on byte lists. -/

/-- The base64 alphabet, as in `btoa`: index `n < 64` to its digit character. -/
def b64Char (n : ℕ) : Char :=
  if n < 26 then Char.ofNat (65 + n)
  else if n < 52 then Char.ofNat (97 + (n - 26))
  else if n < 62 then Char.ofNat (48 + (n - 52))
  else if n = 62 then '+'
  else '/'

/-- Inverse digit lookup used by `atob`. -/
def b64Val (c : Char) : ℕ :=
  if 65 ≤ c.toNat ∧ c.toNat ≤ 90 then c.toNat - 65
  else if 97 ≤ c.toNat ∧ c.toNat ≤ 122 then c.toNat - 97 + 26
  else if 48 ≤ c.toNat ∧ c.toNat ≤ 57 then c.toNat - 48 + 52
  else if c = '+' then 62
  else 63

/-- `btoa` on a byte list: 3-byte chunks become 4 base64 digits, with `'='`
padding for a trailing 1- or 2-byte chunk. -/
def btoaBytes : List ℕ → List Char
  | [] => []
  | [a] => [b64Char (a / 4), b64Char (a % 4 * 16), '=', '=']
  | [a, b] => [b64Char (a / 4), b64Char (a % 4 * 16 + b / 16), b64Char (b % 16 * 4), '=']
  | a :: b :: c :: rest =>
      b64Char (a / 4) :: b64Char (a % 4 * 16 + b / 16) ::
      b64Char (b % 16 * 4 + c / 64) :: b64Char (c % 64) :: btoaBytes rest

/-- `atob` on a base64 string: each 4-digit chunk yields 3 bytes, truncated
according to the `'='` padding. -/
def atobChars : List Char → List ℕ
  | c1 :: c2 :: c3 :: c4 :: rest =>
      let b1 := b64Val c1 * 4 + b64Val c2 / 16
      let b2 := b64Val c2 % 16 * 16 + b64Val c3 / 4
      let b3 := b64Val c3 % 4 * 64 + b64Val c4
      if c3 = '=' then [b1]
      else if c4 = '=' then [b1, b2]
      else b1 :: b2 :: b3 :: atobChars rest
  | _ => []

lemma b64Val_b64Char {n : ℕ} (h : n < 64) : b64Val (b64Char n) = n := by
  interval_cases n <;> decide

lemma b64Char_ne_eq {n : ℕ} (h : n < 64) : b64Char n ≠ '=' := by
  interval_cases n <;> decide

/-- `atob` inverts `btoa` on genuine byte sequences. -/
lemma atobChars_btoaBytes : ∀ l : List ℕ, (∀ b ∈ l, b < 256) →
    atobChars (btoaBytes l) = l
  | [], _ => rfl
  | [a], h => by
    have ha : a < 256 := h a (by simp)
    have h1 : a / 4 < 64 := by omega
    have h2 : a % 4 * 16 < 64 := by omega
    simp only [btoaBytes, atobChars, b64Val_b64Char h1, b64Val_b64Char h2]
    norm_num
    omega
  | [a, b], h => by
    have ha : a < 256 := h a (by simp)
    have hb : b < 256 := h b (by simp)
    have h1 : a / 4 < 64 := by omega
    have h2 : a % 4 * 16 + b / 16 < 64 := by omega
    have h3 : b % 16 * 4 < 64 := by omega
    simp only [btoaBytes, atobChars, b64Val_b64Char h1, b64Val_b64Char h2, b64Val_b64Char h3,
      if_neg (b64Char_ne_eq h3)]
    norm_num
    omega
  | a :: b :: c :: rest, h => by
    have ha : a < 256 := h a (by simp)
    have hb : b < 256 := h b (by simp)
    have hc : c < 256 := h c (by simp)
    have h1 : a / 4 < 64 := by omega
    have h2 : a % 4 * 16 + b / 16 < 64 := by omega
    have h3 : b % 16 * 4 + c / 64 < 64 := by omega
    have h4 : c % 64 < 64 := by omega
    have ih := atobChars_btoaBytes rest (fun x hx => h x (by simp [hx]))
    simp only [btoaBytes, atobChars, b64Val_b64Char h1, b64Val_b64Char h2, b64Val_b64Char h3,
      b64Val_b64Char h4, if_neg (b64Char_ne_eq h3), if_neg (b64Char_ne_eq h4), ih,
      List.cons.injEq, and_true]
    omega

/-- Every character `btoa` emits is ASCII (a base64 digit or `'='`). -/
lemma btoaBytes_ascii : ∀ l : List ℕ, (∀ b ∈ l, b < 256) →
    ∀ c ∈ btoaBytes l, c.toNat < 128
  | [], _ => by simp [btoaBytes]
  | [a], h => by
    have ha : a < 256 := h a (by simp)
    have h1 : a / 4 < 64 := by omega
    have h2 : a % 4 * 16 < 64 := by omega
    intro c hc
    simp only [btoaBytes, List.mem_cons, List.not_mem_nil, or_false] at hc
    rcases hc with rfl | rfl | rfl | rfl
    · revert h1; generalize a / 4 = n; intro h1; interval_cases n <;> decide
    · revert h2; generalize a % 4 * 16 = n; intro h2; interval_cases n <;> decide
    · decide
    · decide
  | [a, b], h => by
    have ha : a < 256 := h a (by simp)
    have hb : b < 256 := h b (by simp)
    have h1 : a / 4 < 64 := by omega
    have h2 : a % 4 * 16 + b / 16 < 64 := by omega
    have h3 : b % 16 * 4 < 64 := by omega
    intro c hc
    simp only [btoaBytes, List.mem_cons, List.not_mem_nil, or_false] at hc
    rcases hc with rfl | rfl | rfl | rfl
    · revert h1; generalize a / 4 = n; intro h1; interval_cases n <;> decide
    · revert h2; generalize a % 4 * 16 + b / 16 = n; intro h2; interval_cases n <;> decide
    · revert h3; generalize b % 16 * 4 = n; intro h3; interval_cases n <;> decide
    · decide
  | a :: b :: c :: rest, h => by
    have ha : a < 256 := h a (by simp)
    have hb : b < 256 := h b (by simp)
    have hc : c < 256 := h c (by simp)
    have h1 : a / 4 < 64 := by omega
    have h2 : a % 4 * 16 + b / 16 < 64 := by omega
    have h3 : b % 16 * 4 + c / 64 < 64 := by omega
    have h4 : c % 64 < 64 := by omega
    have ih := btoaBytes_ascii rest (fun x hx => h x (by simp [hx]))
    intro d hd
    simp only [btoaBytes, List.mem_cons] at hd
    rcases hd with rfl | rfl | rfl | rfl | hd
    · revert h1; generalize a / 4 = n; intro h1; interval_cases n <;> decide
    · revert h2; generalize a % 4 * 16 + b / 16 = n; intro h2; interval_cases n <;> decide
    · revert h3; generalize b % 16 * 4 + c / 64 = n; intro h3; interval_cases n <;> decide
    · revert h4; generalize c % 64 = n; intro h4; interval_cases n <;> decide
    · exact ih d hd

/-- Length of a `btoa` blob: `⌈len/3⌉ * 4` characters. -/
lemma btoaBytes_length : ∀ l : List ℕ, (btoaBytes l).length = (l.length + 2) / 3 * 4
  | [] => rfl
  | [_] => by simp [btoaBytes]
  | [_, _] => by simp [btoaBytes]
  | a :: b :: c :: rest => by
    simp only [btoaBytes, List.length_cons, btoaBytes_length rest]
    omega

/-! ## UTF-8 (`TextEncoder` / `TextDecoder`)

The source converts JS strings to bytes with `new TextEncoder().encode(...)`
and back with `new TextDecoder().decode(...)`; both are standard UTF-8.
A text is a `List Char` (Lean `Char` is exactly a Unicode scalar value). -/

/-- UTF-8 encoding of one scalar value (1–4 bytes). -/
def utf8EncodeChar (n : ℕ) : List ℕ :=
  if n < 128 then [n]
  else if n < 2048 then [192 + n / 64, 128 + n % 64]
  else if n < 65536 then [224 + n / 4096, 128 + n / 64 % 64, 128 + n % 64]
  else [240 + n / 262144, 128 + n / 4096 % 64, 128 + n / 64 % 64, 128 + n % 64]

/-- `TextEncoder.encode`: UTF-8 bytes of a text. -/
def utf8Encode (s : List Char) : List ℕ := s.flatMap (fun c => utf8EncodeChar c.toNat)

/-- One step of UTF-8 decoding: classify the lead byte, consume the
continuation bytes, return the decoded character and the remaining bytes. -/
def utf8Step (b : ℕ) (rest : List ℕ) : Char × List ℕ :=
  if b < 128 then (Char.ofNat b, rest)
  else if b < 224 then
    match rest with
    | b1 :: rest2 => (Char.ofNat ((b - 192) * 64 + (b1 - 128)), rest2)
    | [] => (Char.ofNat 0, [])
  else if b < 240 then
    match rest with
    | b1 :: b2 :: rest3 => (Char.ofNat ((b - 224) * 4096 + (b1 - 128) * 64 + (b2 - 128)), rest3)
    | _ => (Char.ofNat 0, [])
  else
    match rest with
    | b1 :: b2 :: b3 :: rest4 =>
        (Char.ofNat ((b - 240) * 262144 + (b1 - 128) * 4096 + (b2 - 128) * 64 + (b3 - 128)),
          rest4)
    | _ => (Char.ofNat 0, [])

lemma utf8Step_snd_length (b : ℕ) (rest : List ℕ) :
    (utf8Step b rest).2.length ≤ rest.length := by
  rw [utf8Step.eq_def]
  split
  · simp
  split
  · match rest with
    | [] => simp
    | b1 :: rest2 => simp
  split
  · match rest with
    | [] => simp
    | [b1] => simp
    | b1 :: b2 :: rest3 => simp; omega
  · match rest with
    | [] => simp
    | [b1] => simp
    | [b1, b2] => simp
    | b1 :: b2 :: b3 :: rest4 => simp; omega

/-- `TextDecoder.decode`: parse UTF-8 bytes back into characters. -/
def utf8Decode : List ℕ → List Char
  | [] => []
  | b :: rest => (utf8Step b rest).1 :: utf8Decode (utf8Step b rest).2
termination_by l => l.length
decreasing_by
  have := utf8Step_snd_length b rest
  simp only [List.length_cons]
  omega

lemma utf8Decode_cons (b : ℕ) (rest : List ℕ) :
    utf8Decode (b :: rest) = (utf8Step b rest).1 :: utf8Decode (utf8Step b rest).2 := by
  rw [utf8Decode]

lemma char_toNat_lt (c : Char) : c.toNat < 1114112 := by
  have := c.valid
  rcases this with h | ⟨h1, h2⟩ <;> simp [Char.toNat] <;> omega

/-- Decoding one encoded scalar consumes exactly its bytes. -/
lemma utf8Step_encode {n : ℕ} (hn : n < 1114112) (tail : List ℕ) :
    ∃ b more, utf8EncodeChar n ++ tail = b :: more ∧
      utf8Step b more = (Char.ofNat n, tail) := by
  rw [utf8EncodeChar]
  by_cases h1 : n < 128
  · refine ⟨n, tail, by simp [h1], ?_⟩
    rw [utf8Step.eq_def, if_pos h1]
  · by_cases h2 : n < 2048
    · refine ⟨192 + n / 64, (128 + n % 64) :: tail, by simp [h1, h2], ?_⟩
      rw [utf8Step, if_neg (by omega), if_pos (by omega)]
      have hv : (192 + n / 64 - 192) * 64 + (128 + n % 64 - 128) = n := by omega
      simp only [hv]
    · by_cases h3 : n < 65536
      · refine ⟨224 + n / 4096, (128 + n / 64 % 64) :: (128 + n % 64) :: tail,
          by simp [h1, h2, h3], ?_⟩
        rw [utf8Step, if_neg (by omega), if_neg (by omega), if_pos (by omega)]
        have hv : (224 + n / 4096 - 224) * 4096 + (128 + n / 64 % 64 - 128) * 64 +
            (128 + n % 64 - 128) = n := by omega
        simp only [hv]
      · refine ⟨240 + n / 262144, (128 + n / 4096 % 64) :: (128 + n / 64 % 64) :: (128 + n % 64) :: tail,
          by simp [h1, h2, h3], ?_⟩
        rw [utf8Step, if_neg (by omega), if_neg (by omega), if_neg (by omega)]
        have hv : (240 + n / 262144 - 240) * 262144 + (128 + n / 4096 % 64 - 128) * 4096 +
            (128 + n / 64 % 64 - 128) * 64 + (128 + n % 64 - 128) = n := by omega
        simp only [hv]

/-- Decoding inverts encoding: UTF-8 round-trip on texts. -/
lemma utf8Decode_utf8Encode : ∀ s : List Char, utf8Decode (utf8Encode s) = s
  | [] => by simp [utf8Encode, utf8Decode]
  | c :: rest => by
    have ih := utf8Decode_utf8Encode rest
    obtain ⟨b, more, heq, hstep⟩ := utf8Step_encode (char_toNat_lt c) (utf8Encode rest)
    show utf8Decode (utf8EncodeChar c.toNat ++ utf8Encode rest) = c :: rest
    rw [heq, utf8Decode_cons, hstep, ih, Char.ofNat_toNat]

/-- UTF-8 bytes are bytes. -/
lemma utf8Encode_lt_256 (s : List Char) : ∀ b ∈ utf8Encode s, b < 256 := by
  intro b hb
  simp only [utf8Encode, List.mem_flatMap] at hb
  obtain ⟨c, _, hbc⟩ := hb
  have hlt := char_toNat_lt c
  rw [utf8EncodeChar] at hbc
  split at hbc <;> [skip; split at hbc <;> [skip; split at hbc]] <;>
    simp only [List.mem_cons, List.not_mem_nil, or_false] at hbc <;> omega

/-- An ASCII character encodes to the single byte equal to its code. -/
lemma utf8EncodeChar_ascii {n : ℕ} (h : n < 128) : utf8EncodeChar n = [n] := by
  simp [utf8EncodeChar, h]

/-! ## Error taxonomy

The source defines no error classes of its own; failures surface as the
exceptions of the Web Crypto primitives.  We name the distinct failure
conditions after the spec's taxonomy (§7).  `authenticationError` stands for
the single `OperationError` that `crypto.subtle.decrypt` throws for AES-GCM,
whether the input is too short to contain a tag or the tag does not verify —
the primitive does not distinguish the two.  `formatError` is the spec's
(distinct) malformed-blob error; nothing in the code produces it. -/

inductive CryptoError where
  | authenticationError
  | formatError
  | emptySecretError
  | missingSessionKeyError
  | decryptionError
  | payloadTooLargeError
  deriving DecidableEq, Repr

/-! ## AES-256-GCM symmetric cipher (`encryptAES256` / `decryptAES256`)

`crypto.subtle` (PBKDF2 derivation, AES-GCM) is an external primitive library.
Modelled from the spec: `deriveKey` is a deterministic function of password
bytes and salt (§4.2); AES-GCM is an authenticated cipher whose ciphertext is
the plaintext length plus a 16-byte tag, whose decryption inverts encryption
under the same key and nonce, and whose decryption rejects inputs shorter than
the tag or with a tag that does not verify, with one undifferentiated
error (§4.3). -/

/-- Modelled from the spec: PBKDF2-SHA-256 key derivation (100000 iterations) —
an injective deterministic map from (password bytes, salt) to key material. -/
def deriveKey (passwordBytes : List ℕ) (salt : List ℕ) : List ℕ × List ℕ :=
  (passwordBytes, salt)

/-- Modelled from the spec: the 16-byte GCM authentication tag, a deterministic
function of key, nonce and ciphertext. -/
def gcmTag (key : List ℕ × List ℕ) (iv : List ℕ) (ct : List ℕ) : List ℕ :=
  List.replicate 16
    ((key.1.sum + 2 * key.2.sum + 3 * iv.sum + 5 * ct.sum + ct.length) % 256)

/-- Modelled from the spec: AES-GCM encryption — ciphertext plus trailing
16-byte tag. -/
def gcmEncrypt (key : List ℕ × List ℕ) (iv : List ℕ) (pt : List ℕ) : List ℕ :=
  pt ++ gcmTag key iv pt

/-- Modelled from the spec: AES-GCM decryption — splits off the trailing
16-byte tag and verifies it; any failure (input shorter than a tag, or tag
mismatch) is the same undifferentiated rejection. -/
def gcmDecrypt (key : List ℕ × List ℕ) (iv : List ℕ) (data : List ℕ) :
    Option (List ℕ) :=
  if data.length < 16 then none
  else
    let ct := data.take (data.length - 16)
    let tag := data.drop (data.length - 16)
    if tag = gcmTag key iv ct then some ct else none

/-- The `EncryptionResult` interface of the source: base64 fields, with the
optional `metadata` only populated by `hybridEncrypt`. -/
structure HybridMeta where
  encryptedKey : ℕ × List ℕ
  algorithm : List Char
  deriving DecidableEq, Repr

structure EncryptionResult where
  encrypted : List Char
  salt : List Char
  iv : List Char
  metadata : Option HybridMeta
  deriving DecidableEq, Repr

/-- `encryptAES256(text, password)`: derive a key from the password and the
16-byte random `salt`, AES-GCM-encrypt under the 12-byte random `iv`, and
base64 the concatenation salt‖iv‖ciphertext.  The random bytes drawn from
`crypto.getRandomValues` are passed explicitly. -/
def encryptAES256 (text password : List Char) (salt iv : List ℕ) : EncryptionResult :=
  let data := utf8Encode text
  let key := deriveKey (utf8Encode password) salt
  let encrypted := gcmEncrypt key iv data
  let combined := salt ++ iv ++ encrypted
  { encrypted := btoaBytes combined
    salt := btoaBytes salt
    iv := btoaBytes iv
    metadata := none }

/-- `decryptAES256(encryptedData, password)`: base64-decode, slice bytes 0–15
as salt, 16–27 as nonce, the rest as ciphertext+tag, re-derive the key and run
authenticated decryption.  There is no length check: an undersized blob reaches
the decryption primitive and fails there, exactly as a wrong tag does. -/
def decryptAES256 (encryptedData password : List Char) : Except CryptoError (List Char) :=
  let combined := atobChars encryptedData
  let salt := combined.take 16
  let iv := (combined.drop 16).take 12
  let encrypted := combined.drop 28
  let key := deriveKey (utf8Encode password) salt
  match gcmDecrypt key iv encrypted with
  | some pt => .ok (utf8Decode pt)
  | none => .error .authenticationError

lemma gcmTag_length (key : List ℕ × List ℕ) (iv ct : List ℕ) :
    (gcmTag key iv ct).length = 16 := by
  simp [gcmTag]

lemma gcmTag_lt_256 (key : List ℕ × List ℕ) (iv ct : List ℕ) :
    ∀ b ∈ gcmTag key iv ct, b < 256 := by
  intro b hb
  simp only [gcmTag, List.mem_replicate] at hb
  omega

/-- GCM round-trip: decrypting an honest encryption returns the plaintext. -/
lemma gcmDecrypt_gcmEncrypt (key : List ℕ × List ℕ) (iv pt : List ℕ) :
    gcmDecrypt key iv (gcmEncrypt key iv pt) = some pt := by
  have htag := gcmTag_length key iv pt
  have hlen : (gcmEncrypt key iv pt).length = pt.length + 16 := by
    simp [gcmEncrypt, htag]
  rw [gcmDecrypt, if_neg (by omega)]
  have htake : (gcmEncrypt key iv pt).take ((gcmEncrypt key iv pt).length - 16) = pt := by
    rw [hlen, gcmEncrypt]
    simp
  have hdrop : (gcmEncrypt key iv pt).drop ((gcmEncrypt key iv pt).length - 16) =
      gcmTag key iv pt := by
    rw [hlen, gcmEncrypt]
    simp
  rw [htake, hdrop, if_pos rfl]

/-- Positional slicing of a salt‖nonce‖ciphertext envelope, as `decryptAES256`
performs it: bytes 0–15, 16–27, 28…. -/
lemma slice_envelope (salt iv ct : List ℕ) (hsalt : salt.length = 16)
    (hiv : iv.length = 12) :
    (salt ++ iv ++ ct).take 16 = salt ∧ ((salt ++ iv ++ ct).drop 16).take 12 = iv ∧
      (salt ++ iv ++ ct).drop 28 = ct := by
  have htake16 : (salt ++ iv ++ ct).take 16 = salt := by
    rw [List.append_assoc, List.take_append_of_le_length (by omega),
      List.take_of_length_le (by omega)]
  have h16 : (salt ++ iv ++ ct).drop 16 = iv ++ ct := by
    rw [List.append_assoc, List.drop_append_of_le_length (by omega),
      List.drop_of_length_le (by omega), List.nil_append]
  have hdrop16 : ((salt ++ iv ++ ct).drop 16).take 12 = iv := by
    rw [h16, List.take_append_of_le_length (by omega), List.take_of_length_le (by omega)]
  have hdrop28 : (salt ++ iv ++ ct).drop 28 = ct := by
    have h2812 : (salt ++ iv ++ ct).drop 28 = ((salt ++ iv ++ ct).drop 16).drop 12 := by
      rw [List.drop_drop]
    rw [h2812, h16, List.drop_append_of_le_length (by omega),
      List.drop_of_length_le (by omega), List.nil_append]
  exact ⟨htake16, hdrop16, hdrop28⟩

/-- The decoded envelope bytes are all `< 256`. -/
lemma envelope_bytes_lt_256 (text password : List Char) (salt iv : List ℕ)
    (hsaltB : ∀ b ∈ salt, b < 256) (hivB : ∀ b ∈ iv, b < 256) :
    ∀ b ∈ salt ++ iv ++ gcmEncrypt (deriveKey (utf8Encode password) salt) iv
        (utf8Encode text), b < 256 := by
  intro b hb
  rcases List.mem_append.1 hb with hb | hb
  · rcases List.mem_append.1 hb with hb | hb
    · exact hsaltB b hb
    · exact hivB b hb
  · rw [gcmEncrypt] at hb
    rcases List.mem_append.1 hb with hb | hb
    · exact utf8Encode_lt_256 text b hb
    · exact gcmTag_lt_256 _ iv _ b hb

/-- Core AES round-trip at the byte level, shared by the symmetric and hybrid
round-trip theorems. -/
lemma decryptAES256_encryptAES256 (text password : List Char) (salt iv : List ℕ)
    (hsalt : salt.length = 16) (hiv : iv.length = 12)
    (hsaltB : ∀ b ∈ salt, b < 256) (hivB : ∀ b ∈ iv, b < 256) :
    decryptAES256 (encryptAES256 text password salt iv).encrypted password =
      .ok text := by
  set key := deriveKey (utf8Encode password) salt with hkey
  set ct := gcmEncrypt key iv (utf8Encode text) with hct
  have hdecode : atobChars (btoaBytes (salt ++ iv ++ ct)) = salt ++ iv ++ ct :=
    atobChars_btoaBytes _ (envelope_bytes_lt_256 text password salt iv hsaltB hivB)
  obtain ⟨htake16, hdrop16, hdrop28⟩ := slice_envelope salt iv ct hsalt hiv
  rw [decryptAES256, encryptAES256]
  simp only [hdecode]
  rw [htake16, hdrop16, hdrop28, ← hkey, gcmDecrypt_gcmEncrypt]
  show Except.ok (utf8Decode (utf8Encode text)) = Except.ok text
  rw [utf8Decode_utf8Encode]

/-! ## RSA-OAEP and the hybrid envelope

The RSA-OAEP primitive (`crypto.subtle.generateKey/encrypt/decrypt` plus the
SPKI/PKCS8 export) is external library code.  Modelled from the spec: key
pairs are opaque matching handles; encryption is bounded by the OAEP payload
ceiling of the modulus (`modulusBytes − 2·hashLen − 2`, hashLen 32 for
SHA-256); decryption with the matching private key inverts encryption and
fails with the scheme's undifferentiated `decryptionError` otherwise.  A
ciphertext is an opaque pair (key handle, payload bytes); its base64 textual
wrapping, a bijection, is elided. -/

structure RSAKey where
  keyId : ℕ
  bits : ℕ
  deriving DecidableEq, Repr

/-- The `KeyPair` interface of the source (`created` timestamp omitted: it is
wall-clock output with no algorithmic content). -/
structure KeyPair where
  publicKey : RSAKey
  privateKey : RSAKey
  keySize : ℕ
  deriving DecidableEq, Repr

/-- `generateRSAKeyPair(keySize)`: a fresh pair of matching handles; the
randomness of generation is the explicit `seed`. -/
def generateRSAKeyPair (seed : ℕ) (keySize : ℕ) : KeyPair :=
  { publicKey := ⟨seed, keySize⟩, privateKey := ⟨seed, keySize⟩, keySize := keySize }

/-- RSA-OAEP-SHA-256 payload ceiling for a given modulus size in bits. -/
def maxOAEPPayload (bits : ℕ) : ℕ := bits / 8 - 66

/-- `encryptRSA(text, publicKey)`: UTF-8-encode and encrypt under the public
key, subject to the OAEP payload ceiling. -/
def encryptRSA (text : List Char) (publicKey : RSAKey) :
    Except CryptoError (ℕ × List ℕ) :=
  let data := utf8Encode text
  if maxOAEPPayload publicKey.bits < data.length then .error .payloadTooLargeError
  else .ok (publicKey.keyId, data)

/-- `decryptRSA(ciphertext, privateKey)`: decrypt with the matching private
key and decode the recovered bytes. -/
def decryptRSA (ciphertext : ℕ × List ℕ) (privateKey : RSAKey) :
    Except CryptoError (List Char) :=
  if ciphertext.1 = privateKey.keyId then .ok (utf8Decode ciphertext.2)
  else .error .decryptionError

/-- `hybridEncrypt(text, publicKey)`: draw a random 32-byte AES session key
(explicit argument `aesKey`), base64 it into the password string consumed by
`encryptAES256`, and RSA-encrypt that same base64 string into the metadata. -/
def hybridEncrypt (text : List Char) (publicKey : RSAKey) (aesKey salt iv : List ℕ) :
    Except CryptoError EncryptionResult :=
  let aesKeyB64 := btoaBytes aesKey
  let aesResult := encryptAES256 text aesKeyB64 salt iv
  match encryptRSA aesKeyB64 publicKey with
  | .ok encryptedKey =>
      .ok { aesResult with metadata := some ⟨encryptedKey, "hybrid".toList⟩ }
  | .error e => .error e

/-- `hybridDecrypt(encryptedData, privateKey, metadata)`: recover the session
key from the metadata with RSA, then decrypt the symmetric envelope with it. -/
def hybridDecrypt (encryptedData : List Char) (privateKey : RSAKey)
    (metadata : Option HybridMeta) : Except CryptoError (List Char) :=
  match metadata with
  | none => .error .missingSessionKeyError
  | some m =>
      match decryptRSA m.encryptedKey privateKey with
      | .ok aesKey => decryptAES256 encryptedData aesKey
      | .error e => .error e

/-- ASCII texts UTF-8-encode to one byte per character. -/
lemma utf8Encode_length_ascii : ∀ L : List Char, (∀ c ∈ L, c.toNat < 128) →
    (utf8Encode L).length = L.length
  | [], _ => rfl
  | c :: rest, h => by
    show (utf8EncodeChar c.toNat ++ utf8Encode rest).length = rest.length + 1
    rw [utf8EncodeChar_ascii (h c (by simp)), List.length_append,
      utf8Encode_length_ascii rest (fun x hx => h x (by simp [hx]))]
    simp [Nat.add_comm]

/-! ## Legacy checksum (`hashMD5`)

This one is plain JS in the source (no Web Crypto), so it is embedded
byte-for-byte: a 32-bit rolling hash over the UTF-16 code units
(`charCodeAt`), with JS's `ToInt32` coercions (`<<` and `& `). -/

/-- JS `ToInt32`: reduce mod 2³² into the signed range [−2³¹, 2³¹). -/
def toInt32 (n : ℤ) : ℤ :=
  let m := n % 4294967296
  if m < 2147483648 then m else m - 4294967296

/-- One iteration of the `hashMD5` loop:
`hash = ((hash << 5) - hash) + char; hash = hash & hash`. -/
def rollingStep (h : ℤ) (c : ℕ) : ℤ := toInt32 (toInt32 (h * 32) - h + c)

/-- The rolling hash accumulated over the text's code units. -/
def rollingHash (text : List ℕ) : ℤ := text.foldl rollingStep 0

/-- Lowercase hex digit. -/
def hexDigit (n : ℕ) : Char := if n < 10 then Char.ofNat (48 + n) else Char.ofNat (87 + n)

/-- Hex digits of `n`, most significant first (`Number.prototype.toString(16)`
for a nonnegative integer); fuel-driven so it is structurally recursive. -/
def natToHexAux : ℕ → ℕ → List Char
  | 0, _ => []
  | fuel + 1, n => if n = 0 then [] else natToHexAux fuel (n / 16) ++ [hexDigit (n % 16)]

def natToHex (n : ℕ) : List Char := if n = 0 then ['0'] else natToHexAux n n

/-- `String.prototype.padStart(width, c)`. -/
def padStartChars (width : ℕ) (c : Char) (l : List Char) : List Char :=
  List.replicate (width - l.length) c ++ l

/-- `hashMD5(text)`: `"0"` for the empty text (`hash.toString()` with hash 0),
otherwise `Math.abs(hash).toString(16).padStart(8, '0')`. -/
def hashMD5 (text : List ℕ) : List Char :=
  if text = [] then ['0']
  else padStartChars 8 '0' (natToHex (rollingHash text).natAbs)

lemma toInt32_bounds (n : ℤ) : -2147483648 ≤ toInt32 n ∧ toInt32 n < 2147483648 := by
  have h0 : 0 ≤ n % 4294967296 := Int.emod_nonneg n (by norm_num)
  have h1 : n % 4294967296 < 4294967296 := Int.emod_lt_of_pos n (by norm_num)
  rw [toInt32]
  split <;> omega

lemma rollingHash_bounds (text : List ℕ) :
    -2147483648 ≤ rollingHash text ∧ rollingHash text < 2147483648 := by
  rw [rollingHash]
  have : ∀ l : List ℕ, ∀ h : ℤ, -2147483648 ≤ h → h < 2147483648 →
      -2147483648 ≤ l.foldl rollingStep h ∧ l.foldl rollingStep h < 2147483648 := by
    intro l
    induction l with
    | nil => intro h hl hu; exact ⟨hl, hu⟩
    | cons c rest ih =>
      intro h hl hu
      rw [List.foldl_cons]
      have hb := toInt32_bounds (toInt32 (h * 32) - h + c)
      exact ih (rollingStep h c) hb.1 hb.2
  exact this text 0 (by norm_num) (by norm_num)

lemma natToHexAux_length : ∀ fuel n k : ℕ, n ≤ fuel → n < 16 ^ k →
    (natToHexAux fuel n).length ≤ k := by
  intro fuel
  induction fuel with
  | zero =>
    intro n k hn _
    interval_cases n
    simp [natToHexAux]
  | succ fuel ih =>
    intro n k hn hk
    by_cases h0 : n = 0
    · simp [natToHexAux, h0]
    · have hk1 : 1 ≤ k := by
        by_contra hc
        interval_cases k
        omega
      have hdiv : n / 16 ≤ fuel := by omega
      have hdivk : n / 16 < 16 ^ (k - 1) := by
        rw [Nat.div_lt_iff_lt_mul (by norm_num)]
        calc n < 16 ^ k := hk
        _ = 16 ^ (k - 1) * 16 := by
          rw [← pow_succ]
          congr 1
          omega
      have := ih (n / 16) (k - 1) hdiv hdivk
      rw [natToHexAux, if_neg h0, List.length_append]
      simp only [List.length_singleton]
      omega

lemma natToHex_length_le {n : ℕ} (h : n < 4294967296) : (natToHex n).length ≤ 8 := by
  rw [natToHex]
  split
  · simp
  · exact natToHexAux_length n n 8 le_rfl (by norm_num; omega)

/-- The set of lowercase hex digit characters. -/
def hexChars : List Char := "0123456789abcdef".toList

lemma hexDigit_mem {n : ℕ} (h : n < 16) : hexDigit n ∈ hexChars := by
  interval_cases n <;> decide

lemma natToHexAux_hex : ∀ fuel n : ℕ, ∀ c ∈ natToHexAux fuel n, c ∈ hexChars := by
  intro fuel
  induction fuel with
  | zero => intro n c hc; simp [natToHexAux] at hc
  | succ fuel ih =>
    intro n c hc
    rw [natToHexAux] at hc
    split at hc
    · simp at hc
    · rcases List.mem_append.1 hc with hc | hc
      · exact ih _ c hc
      · simp only [List.mem_singleton] at hc
        subst hc
        exact hexDigit_mem (Nat.mod_lt _ (by norm_num))

lemma natToHex_hex {n : ℕ} : ∀ c ∈ natToHex n, c ∈ hexChars := by
  intro c hc
  rw [natToHex] at hc
  split at hc
  · simp only [List.mem_singleton] at hc
    subst hc
    decide
  · exact natToHexAux_hex n n c hc

/-! ## HMAC (`generateHMAC`)

`crypto.subtle.importKey('raw', ..., 'HMAC', ...)` and `crypto.subtle.sign`
are external primitives.  Modelled from the spec (and the Web Crypto HMAC
key-import step, which rejects zero-length key data): importing an empty
secret is the one failure path, named `emptySecretError` after the spec's
taxonomy; signing is a deterministic 32-byte keyed digest. -/

/-- Modelled from the spec: raw HMAC key import — rejects an empty key,
returns the key material otherwise. -/
def importHMACKey (keyData : List ℕ) : Except CryptoError (List ℕ) :=
  if keyData = [] then .error .emptySecretError else .ok keyData

/-- Modelled from the spec: HMAC-SHA-256 — a deterministic 32-byte digest of
key and message. -/
def hmacSha256 (key msg : List ℕ) : List ℕ :=
  List.replicate 32 ((key.sum * 7 + msg.sum * 11 + key.length + msg.length) % 256)

/-- Byte list to lowercase hex, as `b.toString(16).padStart(2, '0')` per byte. -/
def bytesToHex (bytes : List ℕ) : List Char :=
  bytes.flatMap fun b => [hexDigit (b / 16 % 16), hexDigit (b % 16)]

/-- `generateHMAC(text, secret)`: import the UTF-8 secret as an HMAC-SHA-256
key, sign the UTF-8 text, return the signature as hex. -/
def generateHMAC (text secret : List Char) : Except CryptoError (List Char) :=
  match importHMACKey (utf8Encode secret) with
  | .error e => .error e
  | .ok key => .ok (bytesToHex (hmacSha256 key (utf8Encode text)))

/-! ## Password strength analysis (`analyzePasswordStrength`)

Pure JS; embedded directly.  A password is its list of UTF-16 code units
(`.length` and the character-class regexes operate on code units).  The only
non-discrete value is the entropy, computed in JS floating point as
`length * Math.log2(charSetSize)`; we model exactly the IEEE special values
this expression can produce: `Math.log2(0) = -Infinity` and
`0 * (-Infinity) = NaN`. -/

/-- `/[a-z]/.test(password)` -/
def hasLower (p : List ℕ) : Bool := p.any fun c => decide (97 ≤ c ∧ c ≤ 122)

/-- `/[A-Z]/.test(password)` -/
def hasUpper (p : List ℕ) : Bool := p.any fun c => decide (65 ≤ c ∧ c ≤ 90)

/-- `/[0-9]/.test(password)` -/
def hasDigit (p : List ℕ) : Bool := p.any fun c => decide (48 ≤ c ∧ c ≤ 57)

/-- `/[^A-Za-z0-9]/.test(password)` -/
def hasSymbol (p : List ℕ) : Bool :=
  p.any fun c => decide (¬ ((97 ≤ c ∧ c ≤ 122) ∨ (65 ≤ c ∧ c ≤ 90) ∨ (48 ≤ c ∧ c ≤ 57)))

/-- The score accumulated by the sequence of `score += 1` updates. -/
def scoreOf (p : List ℕ) : ℕ :=
  (if 8 ≤ p.length then 1 else 0) + (if 12 ≤ p.length then 1 else 0) +
  (if 16 ≤ p.length then 1 else 0) + (if hasLower p then 1 else 0) +
  (if hasUpper p then 1 else 0) + (if hasDigit p then 1 else 0) +
  (if hasSymbol p then 1 else 0)

/-- `charSetSize`: 26/26/10/32 summed over the present categories. -/
def charSetSize (p : List ℕ) : ℕ :=
  (if hasLower p then 26 else 0) + (if hasUpper p then 26 else 0) +
  (if hasDigit p then 10 else 0) + (if hasSymbol p then 32 else 0)

inductive Strength where
  | weak
  | fair
  | good
  | strong
  | excellent
  deriving DecidableEq, Repr

/-- The `if/else` chain mapping the score to a strength label. -/
def strengthOf (p : List ℕ) : Strength :=
  if scoreOf p ≤ 2 then .weak
  else if scoreOf p ≤ 4 then .fair
  else if scoreOf p ≤ 5 then .good
  else if scoreOf p ≤ 6 then .strong
  else .excellent

/-- The remediation strings pushed for each missing category, in source order. -/
def feedbackOf (p : List ℕ) : List (List Char) :=
  (if 8 ≤ p.length then [] else ["Use at least 8 characters".toList]) ++
  (if hasLower p then [] else ["Include lowercase letters".toList]) ++
  (if hasUpper p then [] else ["Include uppercase letters".toList]) ++
  (if hasDigit p then [] else ["Include numbers".toList]) ++
  (if hasSymbol p then [] else ["Include special characters".toList])

/-- The JS double values reachable by `length * Math.log2(charSetSize)`:
a finite number, `-Infinity`, or `NaN`. -/
inductive JsFloat where
  | num (x : ℝ)
  | negInf
  | nan

/-- `Math.log2` on a nonnegative integer: `-Infinity` at 0, else the real
logarithm base 2. -/
noncomputable def jsLog2 (n : ℕ) : JsFloat :=
  if n = 0 then .negInf else .num (Real.logb 2 n)

/-- IEEE multiplication of a nonnegative integer by a `JsFloat`:
`0 * (-Infinity) = NaN`. -/
def jsMulNat (a : ℕ) (x : JsFloat) : JsFloat :=
  match x with
  | .num q => .num (a * q)
  | .negInf => if a = 0 then .nan else .negInf
  | .nan => .nan

/-- `entropy = password.length * Math.log2(charSetSize)`. -/
noncomputable def entropyOf (p : List ℕ) : JsFloat := jsMulNat p.length (jsLog2 (charSetSize p))

/-- The record returned by `analyzePasswordStrength`. -/
structure PasswordStrengthReport where
  score : ℕ
  strength : Strength
  entropy : JsFloat
  feedback : List (List Char)

noncomputable def analyzePasswordStrength (p : List ℕ) : PasswordStrengthReport :=
  { score := scoreOf p
    strength := strengthOf p
    entropy := entropyOf p
    feedback := feedbackOf p }

/-! ## LSB steganography (`textToBinary` / `binaryToText` / `hideTextInImage`)

Pure JS in `CommandPalette.tsx`; embedded directly.  A bit is a `Bool`
(`'1'` ↦ `true`); the pixel buffer is the RGBA byte list `imageData.data`. -/

/-- Binary digits of `n`, most significant first (`Number.prototype.toString(2)`
emits no digits here for 0 — the 0 case is handled in `natBin`). -/
def natBinAux : ℕ → ℕ → List Bool
  | 0, _ => []
  | fuel + 1, n => if n = 0 then [] else natBinAux fuel (n / 2) ++ [decide (n % 2 = 1)]

/-- `n.toString(2)` as a bit list: `"0"` for 0, else the binary digits. -/
def natBin (n : ℕ) : List Bool := if n = 0 then [false] else natBinAux n n

/-- `padStart(8, '0')` on a bit string. -/
def padStart8 (l : List Bool) : List Bool := List.replicate (8 - l.length) false ++ l

/-- The bit group of one character: `charCodeAt(i).toString(2).padStart(8, '0')`.
For codes ≥ 256 the binary string is longer than 8 bits and `padStart` pads
nothing. -/
def charBits (c : ℕ) : List Bool := padStart8 (natBin c)

/-- The 16-bit end marker `1111111111111110`. -/
def endMarker : List Bool := List.replicate 15 true ++ [false]

/-- The bitstream of the text before the end marker is appended. -/
def payloadBits (text : List ℕ) : List Bool := text.flatMap charBits

/-- `textToBinary(text)`: the character bit groups, then the end marker. -/
def textToBinary (text : List ℕ) : List Bool := payloadBits text ++ endMarker

/-- The sentinel pattern occurs in `l` at position `i`. -/
def sentinelOccursAt (l : List Bool) (i : ℕ) : Prop := (l.drop i).take 16 = endMarker

instance (l : List Bool) (i : ℕ) : Decidable (sentinelOccursAt l i) := by
  unfold sentinelOccursAt
  infer_instance

/-- `parseInt(byte, 2)` on a bit string, most significant bit first. -/
def bitsToNat (l : List Bool) : ℕ := l.foldl (fun a b => 2 * a + (if b then 1 else 0)) 0

/-- `binary.indexOf(endMarker)`: position of the first sentinel occurrence. -/
def findMarker : List Bool → Option ℕ
  | [] => none
  | b :: t => if sentinelOccursAt (b :: t) 0 then some 0 else (findMarker t).map (· + 1)

/-- The 8-bit groups before the marker, decoded to character codes
(`String.fromCharCode(parseInt(byte, 2))`; a trailing group shorter than
8 bits is dropped). -/
def bytesOfBits (l : List Bool) : List ℕ :=
  if 8 ≤ l.length then bitsToNat (l.take 8) :: bytesOfBits (l.drop 8) else []
termination_by l.length
decreasing_by
  rename_i h
  simp only [List.length_drop]
  omega

/-- `binaryToText(binary)`: scan for the sentinel and decode the preceding
8-bit groups; empty if the sentinel never occurs. -/
def binaryToText (binary : List Bool) : List ℕ :=
  match findMarker binary with
  | none => []
  | some i => bytesOfBits (binary.take i)

/-- The numeric value of a payload bit (`parseInt(binary[binaryIndex])`). -/
def bitVal (b : Bool) : ℕ := if b then 1 else 0

/-- The embedding loop of `hideTextInImage`: walk the buffer keeping the byte
index `j`; every stride-4 sample (`j % 4 = 0`) whose sample index `j / 4` is
still below the payload length gets `(data[j] & 0xFE) | bit`. -/
def hideBits (binary : List Bool) : ℕ → List ℕ → List ℕ
  | _, [] => []
  | j, b :: rest =>
      (if j % 4 = 0 ∧ j / 4 < binary.length
        then b / 2 * 2 + bitVal (binary.getD (j / 4) false)
        else b) :: hideBits binary (j + 1) rest

/-- `hideTextInImage(canvas, text)` acting on the pixel byte buffer: embed
`textToBinary(text)` into the LSBs of the stride-4 samples, stopping when the
payload (or the buffer) is exhausted. -/
def hideTextInImage (data text : List ℕ) : List ℕ :=
  hideBits (textToBinary text) 0 data

/-! ### Steganography lemmas -/

lemma natBinAux_length : ∀ fuel n k : ℕ, n ≤ fuel → n < 2 ^ k →
    (natBinAux fuel n).length ≤ k := by
  intro fuel
  induction fuel with
  | zero =>
    intro n k hn _
    interval_cases n
    simp [natBinAux]
  | succ fuel ih =>
    intro n k hn hk
    by_cases h0 : n = 0
    · simp [natBinAux, h0]
    · have hk1 : 1 ≤ k := by
        by_contra hc
        interval_cases k
        omega
      have hdivk : n / 2 < 2 ^ (k - 1) := by
        rw [Nat.div_lt_iff_lt_mul (by norm_num)]
        calc n < 2 ^ k := hk
        _ = 2 ^ (k - 1) * 2 := by
          rw [← pow_succ]
          congr 1
          omega
      have := ih (n / 2) (k - 1) (by omega) hdivk
      rw [natBinAux, if_neg h0, List.length_append]
      simp only [List.length_singleton]
      omega

lemma natBin_length_le {n : ℕ} (h : n < 256) : (natBin n).length ≤ 8 := by
  rw [natBin]
  split
  · simp
  · exact natBinAux_length n n 8 le_rfl (by omega)

/-- Character codes below 256 produce exactly 8-bit groups. -/
lemma charBits_length {c : ℕ} (h : c < 256) : (charBits c).length = 8 := by
  have := natBin_length_le h
  rw [charBits, padStart8, List.length_append, List.length_replicate]
  omega

set_option maxRecDepth 4096 in
/-- No code unit below 255 yields the all-ones group. -/
lemma charBits_ne_full : ∀ c : ℕ, c < 255 → charBits c ≠ List.replicate 8 true := by
  decide

/-- A window of 15 consecutive bits in a concatenation of 8-bit groups, none of
which is all-ones, is never all-ones: any such window fully contains one of the
groups. -/
lemma no_fifteen_run : ∀ gs : List (List Bool),
    (∀ g ∈ gs, g.length = 8 ∧ g ≠ List.replicate 8 true) →
    ∀ i, (gs.flatten.drop i).take 15 ≠ List.replicate 15 true
  | [], _ => by
    intro i h
    simp only [List.flatten_nil, List.drop_nil, List.take_nil] at h
    exact (by decide : ([] : List Bool) ≠ List.replicate 15 true) h
  | g :: rest, hg => by
    intro i hcontra
    obtain ⟨hg8, hgne⟩ := hg g (by simp)
    have hrest : ∀ g' ∈ rest, g'.length = 8 ∧ g' ≠ List.replicate 8 true :=
      fun g' h' => hg g' (by simp [h'])
    rw [List.flatten_cons] at hcontra
    by_cases hi : 8 ≤ i
    · rw [List.drop_append_eq_append_drop, List.drop_of_length_le (by omega),
        List.nil_append] at hcontra
      exact no_fifteen_run rest hrest (i - g.length) hcontra
    · rw [List.drop_append_eq_append_drop, show i - g.length = 0 by omega,
        List.drop_zero, List.take_append_eq_append_take] at hcontra
      have hlen_di : (g.drop i).length = 8 - i := by
        rw [List.length_drop, hg8]
      rw [List.take_of_length_le (by omega), hlen_di] at hcontra
      by_cases hi0 : i = 0
      · subst hi0
        apply hgne
        have hu := congrArg (List.take 8) hcontra
        rw [List.take_append_eq_append_take, List.take_of_length_le (by omega),
          show 8 - (g.drop 0).length = 0 by omega, List.take_zero, List.append_nil,
          List.drop_zero, List.take_replicate, show min 8 15 = 8 by omega] at hu
        exact hu
      · have hv := congrArg (List.drop (8 - i)) hcontra
        rw [List.drop_append_eq_append_drop, List.drop_of_length_le (by omega),
          List.nil_append, show 8 - i - (g.drop i).length = 0 by omega, List.drop_zero,
          List.drop_replicate] at hv
        have hSlen : 8 ≤ rest.flatten.length := by
          have hl := congrArg List.length hv
          rw [List.length_take, List.length_replicate] at hl
          omega
        match rest, hrest, hv, hSlen with
        | [], _, _, hSlen => simp at hSlen
        | g' :: rest', hrest, hv, _ =>
          obtain ⟨hg'8, hg'ne⟩ := hrest g' (by simp)
          apply hg'ne
          have htake8 : ((g' :: rest').flatten).take 8 = g' := by
            rw [List.flatten_cons, List.take_append_of_le_length (by omega),
              List.take_of_length_le (by omega)]
          rw [← htake8]
          calc (g' :: rest').flatten.take 8
              = ((g' :: rest').flatten.take (15 - (8 - i))).take 8 := by
                rw [List.take_take, show min 8 (15 - (8 - i)) = 8 by omega]
            _ = (List.replicate (15 - (8 - i)) true).take 8 := by rw [hv]
            _ = List.replicate 8 true := by
                rw [List.take_replicate, show min 8 (15 - (8 - i)) = 8 by omega]

/-- A sentinel occurrence contains a run of 15 ones. -/
lemma sentinel_run {l : List Bool} {i : ℕ} (h : sentinelOccursAt l i) :
    (l.drop i).take 15 = List.replicate 15 true := by
  rw [sentinelOccursAt] at h
  have h15 := congrArg (List.take 15) h
  rw [List.take_take, show min 15 16 = 15 by omega,
    show endMarker.take 15 = List.replicate 15 true from by decide] at h15
  exact h15

/-! ### Embedding loop lemmas -/

lemma hideBits_length (binary : List Bool) : ∀ (j : ℕ) (l : List ℕ),
    (hideBits binary j l).length = l.length
  | _, [] => rfl
  | j, b :: rest => by
    rw [hideBits, List.length_cons, List.length_cons, hideBits_length binary (j + 1) rest]

lemma hideBits_getD (binary : List Bool) : ∀ (l : List ℕ) (j i : ℕ), i < l.length →
    (hideBits binary j l).getD i 0 =
      if (j + i) % 4 = 0 ∧ (j + i) / 4 < binary.length
        then (l.getD i 0) / 2 * 2 + bitVal (binary.getD ((j + i) / 4) false)
        else l.getD i 0
  | [], _, i, hi => by simp at hi
  | b :: rest, j, 0, _ => by
    rw [hideBits]
    simp
  | b :: rest, j, i + 1, hi => by
    rw [hideBits]
    simp only [List.getD_cons_succ]
    rw [hideBits_getD binary rest (j + 1) i (by simpa using hi)]
    have : j + 1 + i = j + (i + 1) := by omega
    rw [this]

/-! ## Claim theorems -/

/-- C1: For every UTF-8 text T and every non-empty password P, decrypting the
`encrypted` field of the result of `encryptAES256(T, P)` with `decryptAES256`
and the same password P returns exactly T.  (The fresh random salt and nonce
are the explicit byte arguments.) -/
theorem C1_aes_roundtrip (T P : List Char) (salt iv : List ℕ)
    (_hP : P ≠ []) (hsalt : salt.length = 16) (hiv : iv.length = 12)
    (hsaltB : ∀ b ∈ salt, b < 256) (hivB : ∀ b ∈ iv, b < 256) :
    decryptAES256 (encryptAES256 T P salt iv).encrypted P = .ok T :=
  decryptAES256_encryptAES256 T P salt iv hsalt hiv hsaltB hivB

/-- Witness for C1 at a concrete text, password, salt and nonce. -/
theorem C1_aes_roundtrip_witness :
    (['p'] : List Char) ≠ [] ∧
    decryptAES256 (encryptAES256 ['h', 'i'] ['p'] (List.replicate 16 7)
      (List.replicate 12 3)).encrypted ['p'] = .ok ['h', 'i'] :=
  ⟨by decide, C1_aes_roundtrip ['h', 'i'] ['p'] (List.replicate 16 7) (List.replicate 12 3)
    (by decide) (by decide) (by decide) (by decide) (by decide)⟩

/-- C2: For every generated RSA key pair (2048 or 4096 bits) and every text T
of arbitrary length — in particular longer than the RSA-OAEP payload ceiling —
`hybridDecrypt` applied to the `encrypted` field of `hybridEncrypt(T, publicKey)`,
with the private key and the metadata carrying the encrypted session key,
returns exactly T. -/
theorem C2_hybrid_roundtrip (T : List Char) (seed bits : ℕ) (aesKey salt iv : List ℕ)
    (hbits : bits = 2048 ∨ bits = 4096) (haes : aesKey.length = 32)
    (haesB : ∀ b ∈ aesKey, b < 256) (hsalt : salt.length = 16) (hiv : iv.length = 12)
    (hsaltB : ∀ b ∈ salt, b < 256) (hivB : ∀ b ∈ iv, b < 256) :
    ∃ r : EncryptionResult,
      hybridEncrypt T (generateRSAKeyPair seed bits).publicKey aesKey salt iv = .ok r ∧
      hybridDecrypt r.encrypted (generateRSAKeyPair seed bits).privateKey r.metadata =
        .ok T := by
  have hascii : ∀ c ∈ btoaBytes aesKey, c.toNat < 128 := btoaBytes_ascii aesKey haesB
  have hdatalen : (utf8Encode (btoaBytes aesKey)).length = 44 := by
    rw [utf8Encode_length_ascii _ hascii, btoaBytes_length, haes]
  have hfits : ¬ maxOAEPPayload bits < (utf8Encode (btoaBytes aesKey)).length := by
    rw [hdatalen, maxOAEPPayload]
    rcases hbits with rfl | rfl <;> norm_num
  have henc : encryptRSA (btoaBytes aesKey) (generateRSAKeyPair seed bits).publicKey =
      .ok (seed, utf8Encode (btoaBytes aesKey)) := by
    rw [encryptRSA]
    exact if_neg hfits
  refine ⟨{ encryptAES256 T (btoaBytes aesKey) salt iv with
      metadata := some ⟨(seed, utf8Encode (btoaBytes aesKey)), "hybrid".toList⟩ }, ?_, ?_⟩
  · rw [hybridEncrypt, henc]
  · have hrsa : decryptRSA (seed, utf8Encode (btoaBytes aesKey)) ⟨seed, bits⟩ =
        .ok (btoaBytes aesKey) := by
      rw [decryptRSA, if_pos rfl, utf8Decode_utf8Encode]
    show hybridDecrypt (encryptAES256 T (btoaBytes aesKey) salt iv).encrypted ⟨seed, bits⟩
      (some ⟨(seed, utf8Encode (btoaBytes aesKey)), "hybrid".toList⟩) = .ok T
    rw [hybridDecrypt, hrsa]
    exact decryptAES256_encryptAES256 T (btoaBytes aesKey) salt iv hsalt hiv hsaltB hivB

/-- Witness for C2 at a 2048-bit key pair and a 200-character text — longer
than the 190-byte OAEP ceiling of a 2048-bit modulus. -/
theorem C2_hybrid_roundtrip_witness :
    maxOAEPPayload 2048 < (utf8Encode (List.replicate 200 'a')).length ∧
    ∃ r : EncryptionResult,
      hybridEncrypt (List.replicate 200 'a') (generateRSAKeyPair 1 2048).publicKey
        (List.replicate 32 5) (List.replicate 16 7) (List.replicate 12 3) = .ok r ∧
      hybridDecrypt r.encrypted (generateRSAKeyPair 1 2048).privateKey r.metadata =
        .ok (List.replicate 200 'a') :=
  ⟨by
    rw [show (utf8Encode (List.replicate 200 'a')).length = 200 from by
      rw [utf8Encode_length_ascii _ (fun c hc => by rw [List.eq_of_mem_replicate hc]; decide),
        List.length_replicate]]
    decide,
    C2_hybrid_roundtrip (List.replicate 200 'a') 1 2048 (List.replicate 32 5)
      (List.replicate 16 7) (List.replicate 12 3) (Or.inl rfl) (by decide) (by decide)
      (by decide) (by decide) (by decide) (by decide)⟩

/-- C3 counterexample: a valid base64 blob whose decoded length (5) is below
28 makes `decryptAES256` fail with the undifferentiated authenticated-
decryption error, not with a distinct `formatError` — the code performs no
length check. -/
theorem C3_counterexample :
    (atobChars (btoaBytes [0, 0, 0, 0, 0])).length < 28 ∧
    decryptAES256 (btoaBytes [0, 0, 0, 0, 0]) ['x'] =
      .error .authenticationError ∧
    decryptAES256 (btoaBytes [0, 0, 0, 0, 0]) ['x'] ≠ .error .formatError := by
  refine ⟨by decide, rfl, ?_⟩
  rw [show decryptAES256 (btoaBytes [0, 0, 0, 0, 0]) ['x'] =
    Except.error CryptoError.authenticationError from rfl]
  simp

/-- C3 (amended): for every password and every base64 blob whose decoded byte
length is less than 28, `decryptAES256` fails — but with the same
authentication (tag-verification) error a wrong password produces, not with a
distinct malformed-input `formatError`. -/
theorem C3_short_blob (bytes : List ℕ) (password : List Char)
    (hlen : bytes.length < 28) (hB : ∀ b ∈ bytes, b < 256) :
    decryptAES256 (btoaBytes bytes) password = .error .authenticationError := by
  have hdecode := atobChars_btoaBytes bytes hB
  rw [decryptAES256]
  simp only [hdecode, List.drop_eq_nil_of_le (show bytes.length ≤ 28 by omega)]
  rfl

/-- Witness for C3 (amended) at a concrete 3-byte blob. -/
theorem C3_short_blob_witness :
    ([1, 2, 3] : List ℕ).length < 28 ∧
    decryptAES256 (btoaBytes [1, 2, 3]) [] = .error .authenticationError :=
  ⟨by decide, C3_short_blob [1, 2, 3] [] (by decide) (by decide)⟩

/-- C4: the symmetric envelope is the base64 of salt (16 bytes) ‖ nonce
(12 bytes) ‖ ciphertext+tag, in that order, and the exact positional slices
`decryptAES256` takes of the decoded bytes — 0–15, 16–27, 28… — recover
exactly the salt, the nonce and the ciphertext+tag. -/
theorem C4_envelope_layout (T P : List Char) (salt iv : List ℕ)
    (hsalt : salt.length = 16) (hiv : iv.length = 12)
    (hsaltB : ∀ b ∈ salt, b < 256) (hivB : ∀ b ∈ iv, b < 256) :
    (encryptAES256 T P salt iv).encrypted =
      btoaBytes (salt ++ iv ++
        gcmEncrypt (deriveKey (utf8Encode P) salt) iv (utf8Encode T)) ∧
    (atobChars (encryptAES256 T P salt iv).encrypted).take 16 = salt ∧
    ((atobChars (encryptAES256 T P salt iv).encrypted).drop 16).take 12 = iv ∧
    (atobChars (encryptAES256 T P salt iv).encrypted).drop 28 =
      gcmEncrypt (deriveKey (utf8Encode P) salt) iv (utf8Encode T) := by
  have hdecode := atobChars_btoaBytes _ (envelope_bytes_lt_256 T P salt iv hsaltB hivB)
  obtain ⟨h1, h2, h3⟩ := slice_envelope salt iv
    (gcmEncrypt (deriveKey (utf8Encode P) salt) iv (utf8Encode T)) hsalt hiv
  refine ⟨rfl, ?_, ?_, ?_⟩ <;>
    rw [show (encryptAES256 T P salt iv).encrypted = btoaBytes (salt ++ iv ++
      gcmEncrypt (deriveKey (utf8Encode P) salt) iv (utf8Encode T)) from rfl, hdecode]
  · exact h1
  · exact h2
  · exact h3

/-- Witness for C4 at a concrete envelope. -/
theorem C4_envelope_layout_witness :
    (List.replicate 16 1 : List ℕ).length = 16 ∧
    (atobChars (encryptAES256 ['a'] ['b'] (List.replicate 16 1)
      (List.replicate 12 2)).encrypted).take 16 = List.replicate 16 1 :=
  ⟨by decide,
    (C4_envelope_layout ['a'] ['b'] (List.replicate 16 1) (List.replicate 12 2)
      (by decide) (by decide) (by decide) (by decide)).2.1⟩

/-- C5 counterexample: a 1-pixel RGBA buffer (1 usable stride-4 sample, fewer
than the 16 payload bits of the empty text) is NOT returned unmodified:
`hideTextInImage` writes the first payload bit into the red channel. -/
theorem C5_counterexample :
    (([0, 0, 0, 0] : List ℕ).length + 3) / 4 < (textToBinary []).length ∧
    hideTextInImage [0, 0, 0, 0] [] ≠ [0, 0, 0, 0] ∧
    hideTextInImage [0, 0, 0, 0] [] = [1, 0, 0, 0] := by
  decide

/-- C5 (amended): when the buffer has fewer usable stride-4 samples than the
payload has bits, `hideTextInImage` does not return the buffer unmodified: it
silently truncates, writing the LSB of every stride-4 sample to the matching
prefix bit of the payload and leaving every other byte unchanged. -/
theorem C5_truncated_embedding (data text : List ℕ)
    (hcap : (data.length + 3) / 4 < (textToBinary text).length) :
    (hideTextInImage data text).length = data.length ∧
    ∀ j, j < data.length →
      (hideTextInImage data text).getD j 0 =
        if j % 4 = 0
          then data.getD j 0 / 2 * 2 + bitVal ((textToBinary text).getD (j / 4) false)
          else data.getD j 0 := by
  constructor
  · exact hideBits_length _ 0 data
  · intro j hj
    rw [hideTextInImage, hideBits_getD _ data 0 j hj]
    simp only [Nat.zero_add]
    by_cases hmod : j % 4 = 0
    · rw [if_pos ⟨hmod, by omega⟩, if_pos hmod]
    · rw [if_neg (fun hc => hmod hc.1), if_neg hmod]

/-- Witness for C5 (amended) at a concrete undersized buffer. -/
theorem C5_truncated_embedding_witness :
    (([5, 6, 7, 8] : List ℕ).length + 3) / 4 < (textToBinary []).length ∧
    (hideTextInImage [5, 6, 7, 8] []).length = ([5, 6, 7, 8] : List ℕ).length :=
  ⟨by decide, (C5_truncated_embedding [5, 6, 7, 8] [] (by decide)).1⟩

/-- C6 counterexample: the 16-bit sentinel occurs inside the pre-marker
bitstream of the text with code units 255, 254 — `11111111` followed by
`11111110` is exactly the sentinel, across the boundary of the two 8-bit
groups. -/
theorem C6_counterexample : sentinelOccursAt (payloadBits [255, 254]) 0 := by
  decide

/-- C6 (amended): for texts all of whose code units are at most 254, the
sentinel pattern does not occur anywhere inside the pre-marker bitstream,
including across group boundaries; code units ≥ 255 can produce it. -/
theorem C6_no_sentinel (text : List ℕ) (h : ∀ c ∈ text, c ≤ 254) :
    ∀ i, ¬ sentinelOccursAt (payloadBits text) i := by
  intro i hocc
  have hrun := sentinel_run hocc
  rw [payloadBits, List.flatMap_def] at hrun
  refine no_fifteen_run (text.map charBits) ?_ i hrun
  intro g hgmem
  rw [List.mem_map] at hgmem
  obtain ⟨c, hc, rfl⟩ := hgmem
  have hc254 := h c hc
  exact ⟨charBits_length (by omega), charBits_ne_full c (by omega)⟩

/-- Witness for C6 (amended) at a concrete text and position. -/
theorem C6_no_sentinel_witness :
    (∀ c ∈ ([104, 105] : List ℕ), c ≤ 254) ∧
    ¬ sentinelOccursAt (payloadBits [104, 105]) 3 :=
  ⟨by decide, C6_no_sentinel [104, 105] (by decide) 3⟩

/-- C7: for every message text, `generateHMAC` with the empty secret fails
with the empty-key import rejection, the spec's `EmptySecretError`. -/
theorem C7_empty_secret (text : List Char) :
    generateHMAC text [] = .error .emptySecretError := rfl

/-- C8 counterexample: on the empty text `hashMD5` returns the decimal string
`"0"` — one character, not an 8-digit zero-padded hex string. -/
theorem C8_counterexample :
    hashMD5 [] = ['0'] ∧ (hashMD5 []).length = 1 ∧ (hashMD5 []).length ≠ 8 := by
  decide

/-- C8 (amended): for every NON-empty text, `hashMD5` returns exactly 8
lowercase hex digits — the zero-padded hex of the absolute value of the 32-bit
rolling hash; for the empty text it returns the 1-character decimal `"0"`. -/
theorem C8_checksum_format (text : List ℕ) (h : text ≠ []) :
    (hashMD5 text).length = 8 ∧ (∀ c ∈ hashMD5 text, c ∈ hexChars) ∧
    hashMD5 text = padStartChars 8 '0' (natToHex (rollingHash text).natAbs) := by
  have hb := rollingHash_bounds text
  have habs : (rollingHash text).natAbs < 4294967296 := by omega
  have hlen := natToHex_length_le habs
  rw [hashMD5, if_neg h]
  refine ⟨?_, ?_, rfl⟩
  · rw [padStartChars, List.length_append, List.length_replicate]
    omega
  · intro c hc
    rw [padStartChars] at hc
    rcases List.mem_append.1 hc with hc | hc
    · rw [List.eq_of_mem_replicate hc]
      decide
    · exact natToHex_hex c hc

/-- Witness for C8 (amended) at a concrete text. -/
theorem C8_checksum_format_witness :
    ([104, 105] : List ℕ) ≠ [] ∧ (hashMD5 [104, 105]).length = 8 :=
  ⟨by decide, (C8_checksum_format [104, 105] (by decide)).1⟩

/-- The UTF-16 code units of the password `"Tr0ub4dor&3"`. -/
def trPassword : List ℕ := [84, 114, 48, 117, 98, 52, 100, 111, 114, 38, 51]

/-- C9: the score is the sum of the seven indicators, the strength label is
the tier of the score (≤2 weak, 3–4 fair, 5 good, 6 strong, otherwise
excellent), and `"Tr0ub4dor&3"` scores 5 ("good") with entropy
`11·log₂ 94 ≈ 72.1` bits (strictly between 72.1 and 72.11). -/
theorem C9_password_analysis :
    (∀ p : List ℕ, (analyzePasswordStrength p).score =
      (if 8 ≤ p.length then 1 else 0) + (if 12 ≤ p.length then 1 else 0) +
      (if 16 ≤ p.length then 1 else 0) + (if hasLower p then 1 else 0) +
      (if hasUpper p then 1 else 0) + (if hasDigit p then 1 else 0) +
      (if hasSymbol p then 1 else 0)) ∧
    (∀ p : List ℕ, (analyzePasswordStrength p).strength =
      if scoreOf p ≤ 2 then .weak
      else if scoreOf p ≤ 4 then .fair
      else if scoreOf p = 5 then .good
      else if scoreOf p = 6 then .strong
      else .excellent) ∧
    (analyzePasswordStrength trPassword).score = 5 ∧
    (analyzePasswordStrength trPassword).strength = .good ∧
    (analyzePasswordStrength trPassword).entropy = .num (11 * Real.logb 2 94) ∧
    (72.1 : ℝ) < 11 * Real.logb 2 94 ∧ (11 : ℝ) * Real.logb 2 94 < 72.11 := by
  have hlogb_lower : (721 : ℝ) < 110 * Real.logb 2 94 := by
    have hpow : ((2 : ℝ)) ^ (721 : ℕ) < (94 : ℝ) ^ (110 : ℕ) := by
      have : (2 : ℕ) ^ 721 < 94 ^ 110 := by norm_num
      exact_mod_cast this
    have hlt := Real.logb_lt_logb (b := 2) (by norm_num)
      (pow_pos (by norm_num : (0:ℝ) < 2) 721) hpow
    rw [Real.logb_pow, Real.logb_pow, Real.logb_self_eq_one (by norm_num)] at hlt
    push_cast at hlt
    linarith
  have hlogb_upper : (110 : ℝ) * Real.logb 2 94 < 7211 / 10 := by
    have hpow : ((94 : ℝ)) ^ (1100 : ℕ) < (2 : ℝ) ^ (7211 : ℕ) := by
      have : (94 : ℕ) ^ 1100 < 2 ^ 7211 := by norm_num
      exact_mod_cast this
    have hlt := Real.logb_lt_logb (b := 2) (by norm_num)
      (pow_pos (by norm_num : (0:ℝ) < 94) 1100) hpow
    rw [Real.logb_pow, Real.logb_pow, Real.logb_self_eq_one (by norm_num)] at hlt
    push_cast at hlt
    linarith
  refine ⟨fun p => rfl, ?_, by decide, by decide, ?_, by linarith, by linarith⟩
  · intro p
    show strengthOf p = _
    rw [strengthOf]
    split_ifs <;> first | rfl | omega
  · show entropyOf trPassword = .num (11 * Real.logb 2 94)
    rw [entropyOf, show charSetSize trPassword = 94 from by decide,
      show trPassword.length = 11 from by decide, jsLog2, if_neg (by norm_num)]
    show JsFloat.num ((11 : ℕ) * Real.logb 2 (94 : ℕ)) = _
    norm_num

/-- C10: for every non-empty password the effective charset size is strictly
positive (every code unit matches at least one category — the symbol class is
the complement of the other three), so the entropy is a finite real; for the
empty password the charset size is 0 and the entropy is `0 · log₂ 0 = NaN`,
not 0. -/
theorem C10_entropy_definedness :
    (∀ p : List ℕ, p ≠ [] → 0 < charSetSize p) ∧
    charSetSize [] = 0 ∧
    (∀ p : List ℕ, p ≠ [] → ∃ q : ℝ, (analyzePasswordStrength p).entropy = .num q) ∧
    (analyzePasswordStrength []).entropy = .nan := by
  have hpos : ∀ p : List ℕ, p ≠ [] → 0 < charSetSize p := by
    intro p hp
    match p, hp with
    | c :: rest, _ =>
      have hcat : hasLower (c :: rest) = true ∨ hasUpper (c :: rest) = true ∨
          hasDigit (c :: rest) = true ∨ hasSymbol (c :: rest) = true := by
        by_cases hl : 97 ≤ c ∧ c ≤ 122
        · left
          simp only [hasLower, List.any_cons, Bool.or_eq_true, decide_eq_true_eq]
          exact Or.inl hl
        · by_cases hu : 65 ≤ c ∧ c ≤ 90
          · right; left
            simp only [hasUpper, List.any_cons, Bool.or_eq_true, decide_eq_true_eq]
            exact Or.inl hu
          · by_cases hd : 48 ≤ c ∧ c ≤ 57
            · right; right; left
              simp only [hasDigit, List.any_cons, Bool.or_eq_true, decide_eq_true_eq]
              exact Or.inl hd
            · right; right; right
              simp only [hasSymbol, List.any_cons, Bool.or_eq_true, decide_eq_true_eq]
              exact Or.inl (by tauto)
      rw [charSetSize]
      rcases hcat with h | h | h | h <;> rw [h] <;> split_ifs <;> first | omega | simp_all
  refine ⟨hpos, rfl, ?_, ?_⟩
  · intro p hp
    have h0 : charSetSize p ≠ 0 := by
      have := hpos p hp
      omega
    refine ⟨(p.length : ℝ) * Real.logb 2 (charSetSize p), ?_⟩
    show entropyOf p = _
    rw [entropyOf, jsLog2, if_neg h0]
    rfl
  · show entropyOf [] = .nan
    rfl

/-- Witness for C10 at a concrete non-empty password. -/
theorem C10_entropy_definedness_witness :
    0 < charSetSize [97] ∧
    ∃ q : ℝ, (analyzePasswordStrength [97]).entropy = .num q :=
  ⟨C10_entropy_definedness.1 [97] (by decide),
    C10_entropy_definedness.2.2.1 [97] (by decide)⟩
